import Mathlib

/-!
Shallow embedding of the cpy buffered file-copy program (src/cpy.h, src/buffer.c,
src/producer.c, src/consumer.c, src/cpy.c) and proofs about its synchronisation
core: the block-partitioned ring buffer, the producer byte-pump, and the
consumer drain loop.
-/

/-- Total ring capacity in bytes (src/cpy.h, BUFFER_SIZE). -/
def BUFFER_SIZE : Nat := 2048

/-- Number of blocks in the ring (src/cpy.h, NUM_BLOCKS). -/
def NUM_BLOCKS : Nat := 64

/-- Bytes per block (src/cpy.h, BLOCK_SIZE). -/
def BLOCK_SIZE : Nat := 32

/-- Consumer staging buffer size (src/consumer.h, CONS_BUFFER_SIZE). -/
def CONS_BUFFER_SIZE : Nat := 32

/-- One store into the shared ring performed by the producer: the block index
under whose mutex the store happens, the offset inside that block, the value of
the producer cursor at the store, and the byte stored (src/producer.c:63). -/
structure Wr where
  block : Nat
  off : Nat
  pos : Nat
  val : Nat
deriving DecidableEq

/-- Linear cell index of a store: blocks are laid out back to back. -/
def Wr.cell (w : Wr) : Nat := w.block * BLOCK_SIZE + w.off

/-- The block-end derivation from a cursor position exactly as the source
writes it (src/producer.c:50 and src/consumer.c:89): the position rounded down
to its block start plus BLOCK_SIZE, with no reduction mod BUFFER_SIZE. -/
def derive_end_of_block (pos : Nat) : Nat := pos - pos % BLOCK_SIZE + BLOCK_SIZE

/-- Per-byte loop of send_data (src/producer.c:59-96): starting from cursor
write, current block cb and end-of-block eob, store each byte of d, advancing
the cursor mod BUFFER_SIZE and switching block exactly when the updated cursor
equals eob (lines 87-94). Returns the stores performed and the final cursor.
The semaphore and mutex operations of the loop do not influence which cells
are written and are modelled separately as an event trace. -/
def sendDataGo : Nat → Nat → Nat → List Nat → List Wr × Nat
  | write, _, _, [] => ([], write)
  | write, cb, eob, b :: rest =>
    let w : Wr := ⟨cb, write % BLOCK_SIZE, write, b⟩
    let write' := (write + 1) % BUFFER_SIZE
    let next :=
      if write' = eob then
        sendDataGo write' ((cb + 1) % NUM_BLOCKS) ((eob + BLOCK_SIZE) % BUFFER_SIZE) rest
      else
        sendDataGo write' cb eob rest
    (w :: next.1, next.2)

/-- send_data (src/producer.c:43-103): derives cur_block (line 48) and
end_of_block (line 50, not reduced mod BUFFER_SIZE) from the cursor, then runs
the per-byte loop on the chunk d. -/
def send_data (write : Nat) (d : List Nat) : List Wr × Nat :=
  sendDataGo write (write / BLOCK_SIZE) (derive_end_of_block write) d

/-- Successive read(2) results of the producer on a regular source file
(src/producer.c:133 and 148): full chunks of B bytes followed by the
remainder. PROD_BUFFER_SIZE is referenced but not defined under src
(producer.h defines TEMP_BUFFER_SIZE = 16), so the chunk size is kept as a
parameter B. -/
def chunks (B : Nat) : List Nat → List (List Nat)
  | [] => []
  | x :: xs => (x :: xs.take (B - 1)) :: chunks B (xs.drop (B - 1))
termination_by l => l.length
decreasing_by
  simp only [List.length_drop, List.length_cons]
  omega

/-- The producer chunk loop of prod_target (src/producer.c:141-151): one
send_data call per chunk, threading the write cursor through the calls. -/
def prodChunksRun (w : Nat) : List (List Nat) → List Wr × Nat
  | [] => ([], w)
  | c :: cs =>
    let r1 := send_data w c
    let r2 := prodChunksRun r1.2 cs
    (r1.1 ++ r2.1, r2.2)

/-- All stores performed by the producer thread for a given input, chunked by
B: the data chunks followed by the single sentinel byte 0 sent through the
same path (src/producer.c:153-156). -/
def prodWrites (B : Nat) (input : List Nat) : List Wr :=
  let r := prodChunksRun 0 (chunks B input)
  r.1 ++ (send_data r.2 [0]).1

/-- Ring memory, linear cell index to byte. calloc zeroes the ring at
creation (src/buffer.c:27). -/
def mem0 : Nat → Nat := fun _ => 0

/-- Replay a list of stores on a ring memory, later stores winning. -/
def applyWrites (ws : List Wr) (m : Nat → Nat) : Nat → Nat :=
  ws.foldl (fun m w => Function.update m w.cell w.val) m

/-- The store the producer performs for the k-th byte of the overall stream
when its block tracking is consistent: cursor k mod BUFFER_SIZE, inside the
block containing that cursor. -/
def wrAt (k v : Nat) : Wr :=
  ⟨k % BUFFER_SIZE / BLOCK_SIZE, k % BUFFER_SIZE % BLOCK_SIZE, k % BUFFER_SIZE, v⟩

/-- Consumer cursor state: read index, current block, end-of-block
(src/consumer.c:56, 71, 89). -/
structure CState where
  read : Nat
  cb : Nat
  eob : Nat
deriving DecidableEq

/-- One in-loop ring read of the consumer (src/consumer.c:131-160): the block
and cursor used for the read, then the cursor advance (line 134) and the
block-crossing update (lines 153-160). -/
def consStep (s : CState) : (Nat × Nat) × CState :=
  let r' := (s.read + 1) % BUFFER_SIZE
  if r' = s.eob then
    ((s.cb, s.read), ⟨r', (s.cb + 1) % NUM_BLOCKS, (s.eob + BLOCK_SIZE) % BUFFER_SIZE⟩)
  else
    ((s.cb, s.read), ⟨r', s.cb, s.eob⟩)

/-- Consumer state after the pre-loop code (src/consumer.c:56-100): the first
byte is taken from block 0 offset 0 (line 68), the cursor advances to 1
(line 71), end_of_block is derived (line 89) and the crossing check applied
(lines 93-100). -/
def consInit : CState :=
  let r := (0 + 1) % BUFFER_SIZE
  let e := derive_end_of_block r
  if r = e then ⟨r, (0 + 1) % NUM_BLOCKS, (e + BLOCK_SIZE) % BUFFER_SIZE⟩
  else ⟨r, 0, e⟩

/-- Consumer cursor state before its (k+1)-th in-loop ring read. -/
def consStateAfter : Nat → CState
  | 0 => consInit
  | k + 1 => (consStep (consStateAfter k)).2

/-- Block index and cursor position of the consumer's k-th ring read; k = 0 is
the hardcoded read of block 0 offset 0 (src/consumer.c:68). -/
def consReadAt : Nat → Nat × Nat
  | 0 => (0, 0)
  | k + 1 => (consStep (consStateAfter k)).1

/-- Linear cell accessed by the consumer's k-th ring read
(src/consumer.c:131 indexes blk with read mod BLOCK_SIZE). -/
def consCell (k : Nat) : Nat :=
  (consReadAt k).1 * BLOCK_SIZE + (consReadAt k).2 % BLOCK_SIZE

/-- Consumer I/O events: a ring read, a store into the staging buffer at a
given index, or a write(2) call with its requested and accepted byte counts. -/
inductive CEv where
  | readEv : CEv
  | storeEv : Nat → CEv
  | flushEv : Nat → Nat → CEv
deriving DecidableEq

/-- Result of the consumer thread body: its I/O event trace, the bytes that
reached the destination file, whether it returned through the short-write
error path, and whether the model ran out of supplied ring bytes while the
loop still wanted to read (the real thread would be blocked on full_spaces). -/
structure ConsRes where
  trace : List CEv
  out : List Nat
  err : Bool
  hung : Bool
deriving DecidableEq

mutual

/-- The consumer while loop (src/consumer.c:105-164) together with the final
flush (lines 171-179). acc is the staging buffer temp_buf (buf_index is its
length), ch the byte read last, stream the bytes the subsequent ring reads
return, and wr models write(2): wr i n is the byte count the i-th write call
of size n returns (nf counts write calls). A mid-loop flush happens before the
store whenever buf_index is at least CONS_BUFFER_SIZE (line 109); any write
returning a count different from the request makes the thread return at once
(lines 115-118 and 173-176). -/
def consLoop (wr : Nat → Nat → Nat) (nf : Nat) (acc : List Nat) (ch : Nat) :
    List Nat → ConsRes
  | stream =>
    if ch = 0 then
      if acc.length = 0 then ⟨[], [], false, false⟩
      else
        let a := wr nf acc.length
        if a = acc.length then ⟨[CEv.flushEv acc.length a], acc, false, false⟩
        else ⟨[CEv.flushEv acc.length a], acc.take a, true, false⟩
    else
      if CONS_BUFFER_SIZE ≤ acc.length then
        let a := wr nf acc.length
        if a = acc.length then
          let r := consLoopStore wr (nf + 1) [] ch stream
          ⟨CEv.flushEv acc.length a :: r.trace, acc ++ r.out, r.err, r.hung⟩
        else ⟨[CEv.flushEv acc.length a], acc.take a, true, false⟩
      else consLoopStore wr nf acc ch stream
termination_by stream => 2 * stream.length + 1

/-- Store of ch into the staging buffer (src/consumer.c:127) followed by the
next ring read (line 131) and the next loop iteration. -/
def consLoopStore (wr : Nat → Nat → Nat) (nf : Nat) (acc : List Nat) (ch : Nat) :
    List Nat → ConsRes
  | [] => ⟨[CEv.storeEv acc.length], [], false, true⟩
  | ch' :: rest =>
    let r := consLoop wr nf (acc ++ [ch]) ch' rest
    ⟨CEv.storeEv acc.length :: CEv.readEv :: r.trace, r.out, r.err, r.hung⟩
termination_by stream => 2 * stream.length

end

/-- The consumer thread body over the sequence of bytes its ring reads return,
starting with the hardcoded first read (src/consumer.c:68). -/
def consRun (wr : Nat → Nat → Nat) : List Nat → ConsRes
  | [] => ⟨[], [], false, true⟩
  | ch0 :: rest =>
    let r := consLoop wr 0 [] ch0 rest
    ⟨CEv.readEv :: r.trace, r.out, r.err, r.hung⟩

/-- A destination that accepts every write in full. -/
def wrFull : Nat → Nat → Nat := fun _ n => n

/-- Whether a trace still contains a write call. -/
def hasFlush : List CEv → Bool
  | [] => false
  | CEv.flushEv _ _ :: _ => true
  | _ :: tr => hasFlush tr

/-- Every write call that accepts a byte count different from its request is
the final event of the trace: nothing is flushed, stored or read afterwards. -/
def shortFlushLast : List CEv → Bool
  | [] => true
  | CEv.flushEv r a :: tr => (a == r || tr.isEmpty) && shortFlushLast tr
  | _ :: tr => shortFlushLast tr

/-- Whether some write call in the trace accepted fewer or more bytes than
requested. -/
def anyShort : List CEv → Bool
  | [] => false
  | CEv.flushEv r a :: tr => !(a == r) || anyShort tr
  | _ :: tr => anyShort tr

/-- Every staging-buffer store happens at an index strictly below
CONS_BUFFER_SIZE. -/
def storesOk : List CEv → Bool
  | [] => true
  | CEv.storeEv i :: tr => decide (i < CONS_BUFFER_SIZE) && storesOk tr
  | _ :: tr => storesOk tr

/-- Every write call requests between 1 and CONS_BUFFER_SIZE bytes, and every
write call other than the last requests exactly CONS_BUFFER_SIZE bytes. -/
def flushSizesOk : List CEv → Bool
  | [] => true
  | CEv.flushEv r _ :: tr =>
    decide (1 ≤ r) && decide (r ≤ CONS_BUFFER_SIZE) &&
      (!(hasFlush tr) || r == CONS_BUFFER_SIZE) && flushSizesOk tr
  | _ :: tr => flushSizesOk tr

/-- Synchronisation events of the worker loops: mutex lock and unlock on a
block, blocking wait, non-blocking trywait (with outcome) and post on a
semaphore (0 names empty_spaces, 1 names full_spaces), and a ring access at a
linear cell. -/
inductive Ev where
  | lockEv : Nat → Ev
  | unlockEv : Nat → Ev
  | semWaitEv : Nat → Ev
  | tryWaitEv : Nat → Bool → Ev
  | semPostEv : Nat → Ev
  | memEv : Nat → Ev
deriving DecidableEq

mutual

/-- Event traces of successive send_data calls (src/producer.c:43-103): each
call performs a blocking wait on empty_spaces then locks the block derived
from the cursor (lines 54-55) and runs the per-byte loop; orc gives every
sem_trywait outcome in program order, indexed by t. -/
def prodCallsTr (orc : Nat → Bool) : Nat → Nat → List (List Nat) → List Ev
  | _, _, [] => []
  | t, w, c :: cs =>
    Ev.semWaitEv 0 :: Ev.lockEv (w / BLOCK_SIZE) ::
      prodGoTr orc t w (w / BLOCK_SIZE) (derive_end_of_block w) c cs
termination_by t w cs => (cs.map (fun c => c.length + 2)).sum

/-- Per-byte loop of one send_data call (src/producer.c:59-100) holding the
lock on cb: store the byte (line 63), post full_spaces (line 72), trywait
empty_spaces (line 78), on failure release the lock, block on empty_spaces
and relock (lines 79-82), then the block-crossing hand-off (lines 87-94).
After the last byte the lock is released (line 100) and the remaining calls
follow. -/
def prodGoTr (orc : Nat → Bool) : Nat → Nat → Nat → Nat → List Nat → List (List Nat) → List Ev
  | t, w, cb, _, [], cs => Ev.unlockEv cb :: prodCallsTr orc t w cs
  | t, w, cb, eob, _ :: rest, cs =>
    let w' := (w + 1) % BUFFER_SIZE
    let cont :=
      if w' = eob then
        Ev.unlockEv cb :: Ev.lockEv ((cb + 1) % NUM_BLOCKS) ::
          prodGoTr orc (t + 1) w' ((cb + 1) % NUM_BLOCKS)
            ((eob + BLOCK_SIZE) % BUFFER_SIZE) rest cs
      else prodGoTr orc (t + 1) w' cb eob rest cs
    Ev.memEv (cb * BLOCK_SIZE + w % BLOCK_SIZE) :: Ev.semPostEv 1 ::
      (if orc t then Ev.tryWaitEv 0 true :: cont
       else Ev.tryWaitEv 0 false :: Ev.unlockEv cb :: Ev.semWaitEv 0 ::
         Ev.lockEv cb :: cont)
termination_by t w cb eob d cs => d.length + 1 + (cs.map (fun c => c.length + 2)).sum

end

/-- Full synchronisation trace of the producer thread: one send_data call per
chunk, then the sentinel call (src/producer.c:141-156). -/
def prodTrace (orc : Nat → Bool) (B : Nat) (input : List Nat) : List Ev :=
  prodCallsTr orc 0 0 (chunks B input ++ [[0]])

/-- Event trace of the consumer while loop (src/consumer.c:105-167) holding
the lock on cb with current byte ch: read the next byte (line 131), post
empty_spaces (line 138), trywait full_spaces (line 143); on trywait failure
release the lock, and if the byte just read is the sentinel break out of the
loop (line 146) reaching the final unlock (line 167), otherwise block on
full_spaces and relock (lines 147-148); then the block-crossing hand-off
(lines 153-160). Loop exit through the while condition also reaches the final
unlock (line 167). -/
def consTrGo (orc : Nat → Bool) : Nat → Nat → Nat → Nat → Nat → List Nat → List Ev
  | t, read, cb, eob, ch, stream =>
    if ch = 0 then [Ev.unlockEv cb]
    else
      match stream with
      | [] => []
      | ch' :: rest =>
        let r' := (read + 1) % BUFFER_SIZE
        let cont :=
          if r' = eob then
            Ev.unlockEv cb :: Ev.lockEv ((cb + 1) % NUM_BLOCKS) ::
              consTrGo orc (t + 1) r' ((cb + 1) % NUM_BLOCKS)
                ((eob + BLOCK_SIZE) % BUFFER_SIZE) ch' rest
          else consTrGo orc (t + 1) r' cb eob ch' rest
        Ev.memEv (cb * BLOCK_SIZE + read % BLOCK_SIZE) :: Ev.semPostEv 0 ::
          (if orc t then Ev.tryWaitEv 1 true :: cont
           else Ev.tryWaitEv 1 false :: Ev.unlockEv cb ::
             (if ch' = 0 then [Ev.unlockEv cb]
              else Ev.semWaitEv 1 :: Ev.lockEv cb :: cont))

/-- Full synchronisation trace of the consumer thread (src/consumer.c:56-167)
over the bytes its ring reads return: blocking wait on full_spaces and lock on
block 0 (lines 62-63), first read (line 68), post empty_spaces (line 73),
trywait full_spaces with release-wait-relock fallback (lines 75-80), the
pre-loop crossing check (lines 93-100), then the loop. -/
def consTrace (orc : Nat → Bool) : List Nat → List Ev
  | [] => []
  | ch0 :: rest =>
    let r := (0 + 1) % BUFFER_SIZE
    let e := derive_end_of_block r
    let cont :=
      if r = e then
        Ev.unlockEv 0 :: Ev.lockEv ((0 + 1) % NUM_BLOCKS) ::
          consTrGo orc 1 r ((0 + 1) % NUM_BLOCKS) ((e + BLOCK_SIZE) % BUFFER_SIZE) ch0 rest
      else consTrGo orc 1 r 0 e ch0 rest
    Ev.semWaitEv 1 :: Ev.lockEv 0 :: Ev.memEv 0 :: Ev.semPostEv 0 ::
      (if orc 0 then Ev.tryWaitEv 1 true :: cont
       else Ev.tryWaitEv 1 false :: Ev.unlockEv 0 :: Ev.semWaitEv 1 ::
         Ev.lockEv 0 :: cont)

/-- Abstract lock state of one side: the block whose mutex it holds, if any. -/
def lockStep (s : Option Nat) : Ev → Option Nat
  | Ev.lockEv b => some b
  | Ev.unlockEv _ => none
  | _ => s

/-- Scans a trace from lock state s and checks that every blocking semaphore
wait happens while no block mutex is held, and is immediately followed by a
lock acquisition. -/
def semWaitSafe : Option Nat → List Ev → Bool
  | _, [] => true
  | s, e :: tr =>
    (match e with
     | Ev.semWaitEv _ =>
       s.isNone && (match tr with | Ev.lockEv _ :: _ => true | _ => false)
     | _ => true) && semWaitSafe (lockStep s e) tr

/-- Number of successful empty_spaces acquisitions in a trace: blocking waits
plus successful trywaits. -/
def countEmptyAcq (tr : List Ev) : Nat :=
  tr.countP (fun e => e == Ev.semWaitEv 0 || e == Ev.tryWaitEv 0 true)

/-- Number of full_spaces posts in a trace. -/
def countFullPost (tr : List Ev) : Nat :=
  tr.countP (fun e => e == Ev.semPostEv 1)

/-- Result of the producer thread body prod_target (src/producer.c:115-166):
the length arguments of the send_data calls its read loop issued, whether the
sentinel send (lines 153-156) was reached, and whether the function returned. -/
structure ProdTargetRes where
  sends : List Int
  sentinel : Bool
  terminated : Bool
deriving DecidableEq

/-- The read loop of prod_target (src/producer.c:141-151) over the successive
return values of read(2): while the status is nonzero, call send_data with it
as the length and read again. A status of -1 (read error) is nonzero and so
does not leave the loop. If the supplied read results are exhausted with the
loop still running the thread has not terminated. -/
def prodTargetLoop : List Int → ProdTargetRes
  | [] => ⟨[], false, false⟩
  | s :: rest =>
    if s = 0 then ⟨[], true, true⟩
    else
      let r := prodTargetLoop rest
      ⟨s :: r.sends, r.sentinel, r.terminated⟩

/-- prod_target (src/producer.c:115-166): if the source cannot be opened the
thread returns at once without any send (lines 122-125); otherwise it runs
the read loop and, on leaving it, sends the sentinel. -/
def prodTarget (openOk : Bool) (reads : List Int) : ProdTargetRes :=
  if openOk then prodTargetLoop reads else ⟨[], false, true⟩

/-- main (src/cpy.c:24-48): returns 1 when argc is not 3; otherwise it starts
both threads, joins them and returns 0. producer_join and consumer_join
(src/producer.c:216, src/consumer.c:241) return 0 unconditionally, and main
never inspects any thread outcome, so the producer result and the consumer
result are ignored. -/
def cpyMain (argc : Nat) (_pres : ProdTargetRes) (_cres : ConsRes) : Nat :=
  if argc ≠ 3 then 1 else 0

/-- The stores the claims describe for a correctly synchronised producer:
byte i of a stream is stored at cursor (n + i) mod BUFFER_SIZE inside the
block containing that cursor. -/
def okWrites (n : Nat) : List Nat → List Wr
  | [] => []
  | b :: rest => wrAt n b :: okWrites (n + 1) rest

/-! ## Theorems -/

/-- C2: the claim states that the block-end value derived from a cursor
position equals ((position rounded down to a multiple of BLOCK_SIZE) +
BLOCK_SIZE) mod BUFFER_SIZE, and in particular is 0 and never BUFFER_SIZE for
positions in the last block. The source derivation (src/producer.c:50,
src/consumer.c:89) omits the mod: at position 2016 — the start of the last
block, a reachable send_data entry cursor — the code derives exactly
BUFFER_SIZE while the claimed formula gives 0. Because the producer cursor is
always reduced mod BUFFER_SIZE, a comparison against BUFFER_SIZE can never
fire, so a send_data call entered in the last block that wraps past the end
of the ring misses the crossing and keeps writing into the last block. -/
theorem block_end_derivation_bug :
    derive_end_of_block 2016 = BUFFER_SIZE ∧
    (2016 / BLOCK_SIZE * BLOCK_SIZE + BLOCK_SIZE) % BUFFER_SIZE = 0 ∧
    derive_end_of_block 2016 ≠ (2016 / BLOCK_SIZE * BLOCK_SIZE + BLOCK_SIZE) % BUFFER_SIZE := by
  refine ⟨by decide, by decide, by decide⟩

/-- C9: main returns 1 exactly when the argument count differs from 3, and
otherwise 0; the returned status is the same whatever the producer and
consumer threads did — no thread outcome flows into it (src/cpy.c:24-48;
producer_join and consumer_join return 0 unconditionally). -/
theorem exit_status_independent (argc : Nat) (p p' : ProdTargetRes) (c c' : ConsRes) :
    cpyMain argc p c = cpyMain argc p' c' ∧
    cpyMain argc p c = (if argc = 3 then 0 else 1) := by
  refine ⟨rfl, ?_⟩
  by_cases h : argc = 3 <;> simp [cpyMain, h]

/-- C8: on an open failure the producer thread does return at once, with no
send_data call and no sentinel. But on a read error the claim fails: read(2)
returns -1, the loop condition while (status) (src/producer.c:141) treats -1
as nonzero, so the thread calls send_data with length -1 and loops instead of
terminating: with the error persisting it never terminates and never sends
the sentinel. The second conjunct evaluates the thread body at the failing
input: one send_data call with length -1 was issued after the error, no
sentinel was sent, and the function has not returned. -/
theorem read_error_not_terminating :
    (∀ reads, prodTarget false reads = ⟨[], false, true⟩) ∧
    prodTarget true [(-1 : Int)] = ⟨[(-1 : Int)], false, false⟩ := by
  constructor
  · intro reads; simp [prodTarget]
  · simp [prodTarget, prodTargetLoop]

/-- Helper for C6: counts over the per-byte loop of one call, given the
counts of the traces of the remaining calls. -/
theorem prodGoTr_counts (orc : Nat → Bool) (cs : List (List Nat)) (E F : Nat)
    (hE : ∀ t w, countEmptyAcq (prodCallsTr orc t w cs) = E)
    (hF : ∀ t w, countFullPost (prodCallsTr orc t w cs) = F) :
    ∀ (d : List Nat) (t w cb eob : Nat),
      countEmptyAcq (prodGoTr orc t w cb eob d cs) = d.length + E ∧
      countFullPost (prodGoTr orc t w cb eob d cs) = d.length + F := by
  intro d
  induction d with
  | nil =>
    intro t w cb eob
    simp [prodGoTr, countEmptyAcq, countFullPost, List.countP_cons] at *
    exact ⟨hE t w, hF t w⟩
  | cons b rest ih =>
    intro t w cb eob
    have h1 := ih (t+1) ((w+1) % BUFFER_SIZE) cb eob
    have h2 := ih (t+1) ((w+1) % BUFFER_SIZE) ((cb + 1) % NUM_BLOCKS)
      ((eob + BLOCK_SIZE) % BUFFER_SIZE)
    simp only [countEmptyAcq, countFullPost] at h1 h2 ⊢
    simp only [prodGoTr]
    by_cases hw : (w + 1) % BUFFER_SIZE = eob
    · rw [hw] at h1 h2
      by_cases ho : orc t <;> simp [hw, ho, List.countP_cons] <;> omega
    · by_cases ho : orc t <;> simp [hw, ho, List.countP_cons] <;> omega

/-- Helper for C6: over any sequence of send_data calls, empty_spaces is
acquired once per call plus once per byte, and full_spaces is posted once per
byte. -/
theorem prodCallsTr_counts (orc : Nat → Bool) :
    ∀ (cs : List (List Nat)) (t w : Nat),
      countEmptyAcq (prodCallsTr orc t w cs) = (cs.map (fun c => c.length + 1)).sum ∧
      countFullPost (prodCallsTr orc t w cs) = (cs.map (fun c => c.length)).sum := by
  intro cs
  induction cs with
  | nil => intro t w; simp [prodCallsTr, countEmptyAcq, countFullPost]
  | cons c cs ih =>
    intro t w
    have hE : ∀ t w, countEmptyAcq (prodCallsTr orc t w cs) = (cs.map (fun c => c.length + 1)).sum :=
      fun t w => (ih t w).1
    have hF : ∀ t w, countFullPost (prodCallsTr orc t w cs) = (cs.map (fun c => c.length)).sum :=
      fun t w => (ih t w).2
    have hgo := prodGoTr_counts orc cs _ _ hE hF c t w (w / BLOCK_SIZE) (derive_end_of_block w)
    simp only [prodCallsTr, countEmptyAcq, countFullPost] at hgo ⊢
    simp [List.countP_cons] at hgo ⊢
    omega

/-- C6 counterexample: the claim says a send_data call transferring L bytes
decrements empty_spaces exactly L times. The trace of a single call with a
one-byte chunk (L = 1) contains 2 successful empty_spaces acquisitions: the
blocking wait at call entry (src/producer.c:54) plus the per-byte trywait
(line 78) or its blocking fallback (line 81). -/
theorem send_slot_accounting_counterexample :
    countEmptyAcq (prodCallsTr (fun _ => true) 0 0 [[5]]) ≠ 1 := by
  simp [prodCallsTr, prodGoTr, countEmptyAcq, derive_end_of_block, BUFFER_SIZE,
    BLOCK_SIZE, NUM_BLOCKS]

/-- C6 amended: during one send_data call transferring an L-byte chunk,
empty_spaces is acquired exactly L + 1 times (once at call entry, once per
byte through the trywait or its blocking fallback) and full_spaces is posted
exactly L times; hence over a whole copy the empty-slot acquisitions exceed
the bytes written (sentinel included) by exactly the number of send_data
calls, while the full-slot posts equal the bytes written. -/
theorem send_slot_accounting (orc : Nat → Bool) (t w : Nat) (d : List Nat)
    (cs : List (List Nat)) :
    countEmptyAcq (prodCallsTr orc t w [d]) = d.length + 1 ∧
    countFullPost (prodCallsTr orc t w [d]) = d.length ∧
    countEmptyAcq (prodCallsTr orc t w cs) = (cs.map (fun c => c.length)).sum + cs.length ∧
    countFullPost (prodCallsTr orc t w cs) = (cs.map (fun c => c.length)).sum := by
  have h1 := prodCallsTr_counts orc [d] t w
  have h2 := prodCallsTr_counts orc cs t w
  simp at h1
  refine ⟨h1.1, h1.2, ?_, h2.2⟩
  rw [h2.1]
  clear h1 h2
  induction cs with
  | nil => simp
  | cons c cs ih => simp [ih]; omega

/-- Helper for C7: in every consumer run, a write call accepting a byte count
different from its request is the final event, and the error flag is set
exactly when such a write occurred. -/
theorem consLoop_shortFlush (wr : Nat → Nat → Nat) :
    ∀ stream : List Nat,
      (∀ nf acc ch,
        shortFlushLast (consLoop wr nf acc ch stream).trace = true ∧
        (consLoop wr nf acc ch stream).err = anyShort (consLoop wr nf acc ch stream).trace) ∧
      (∀ nf acc ch,
        shortFlushLast (consLoopStore wr nf acc ch stream).trace = true ∧
        (consLoopStore wr nf acc ch stream).err = anyShort (consLoopStore wr nf acc ch stream).trace) := by
  intro stream
  induction stream with
  | nil =>
    constructor
    · intro nf acc ch
      simp only [consLoop]
      split_ifs <;> simp_all [consLoopStore, shortFlushLast, anyShort]
    · intro nf acc ch
      simp [consLoopStore, shortFlushLast, anyShort, storesOk]
  | cons ch' rest ih =>
    have hstore : ∀ nf acc ch,
        shortFlushLast (consLoopStore wr nf acc ch (ch' :: rest)).trace = true ∧
        (consLoopStore wr nf acc ch (ch' :: rest)).err =
          anyShort (consLoopStore wr nf acc ch (ch' :: rest)).trace := by
      intro nf acc ch
      have hl := ih.1 nf (acc ++ [ch]) ch'
      simp only [consLoopStore]
      simp [shortFlushLast, anyShort, hl.1, hl.2]
    refine ⟨?_, hstore⟩
    intro nf acc ch
    simp only [consLoop]
    split_ifs <;> simp_all [shortFlushLast, anyShort]

/-- C7: whenever a write(2) call accepts a byte count different from the
request (in particular fewer bytes), the consumer reports the error and
returns at once: the short write is the last event of its I/O trace, so no
further ring read, staging store or destination write happens after it, and
the error flag is set exactly when a short write occurred
(src/consumer.c:109-122 and 171-179). -/
theorem short_write_fatal (wr : Nat → Nat → Nat) (stream : List Nat) :
    shortFlushLast (consRun wr stream).trace = true ∧
    (consRun wr stream).err = anyShort (consRun wr stream).trace := by
  cases stream with
  | nil => simp [consRun, shortFlushLast, anyShort]
  | cons ch0 rest =>
    have h := (consLoop_shortFlush wr rest).1 0 [] ch0
    simp only [consRun]
    simp [shortFlushLast, anyShort, h.1, h.2]

/-- Helper for C10: with the staging buffer within its capacity, every store
of the run happens at an index strictly below CONS_BUFFER_SIZE and the write
call sizes are as claimed. -/
theorem consLoop_bounds (wr : Nat → Nat → Nat) :
    ∀ stream : List Nat,
      (∀ nf acc ch, acc.length ≤ CONS_BUFFER_SIZE →
        storesOk (consLoop wr nf acc ch stream).trace = true ∧
        flushSizesOk (consLoop wr nf acc ch stream).trace = true) ∧
      (∀ nf acc ch, acc.length < CONS_BUFFER_SIZE →
        storesOk (consLoopStore wr nf acc ch stream).trace = true ∧
        flushSizesOk (consLoopStore wr nf acc ch stream).trace = true) := by
  intro stream
  induction stream with
  | nil =>
    constructor
    · intro nf acc ch hacc
      simp only [consLoop]
      split_ifs <;>
        simp_all [consLoopStore, storesOk, flushSizesOk, CONS_BUFFER_SIZE, hasFlush,
          ← List.length_pos_iff_ne_nil] <;> omega
    · intro nf acc ch hacc
      simp [consLoopStore, storesOk, flushSizesOk, hacc]
  | cons ch' rest ih =>
    have hstore : ∀ nf acc ch, acc.length < CONS_BUFFER_SIZE →
        storesOk (consLoopStore wr nf acc ch (ch' :: rest)).trace = true ∧
        flushSizesOk (consLoopStore wr nf acc ch (ch' :: rest)).trace = true := by
      intro nf acc ch hacc
      have hl := ih.1 nf (acc ++ [ch]) ch' (by simp; omega)
      simp only [consLoopStore]
      simp [storesOk, flushSizesOk, hl.1, hl.2, hacc]
    refine ⟨?_, hstore⟩
    intro nf acc ch hacc
    simp only [consLoop]
    split_ifs <;>
      simp_all [storesOk, flushSizesOk, CONS_BUFFER_SIZE, hasFlush,
        ← List.length_pos_iff_ne_nil] <;> omega

/-- C10: throughout the consumer loop, every store into the staging buffer
temp_buf happens at an index strictly below CONS_BUFFER_SIZE (so buf_index
stays in [0, CONS_BUFFER_SIZE]), every write(2) call requests between 1 and
CONS_BUFFER_SIZE bytes, and every write call except possibly the final one
requests exactly CONS_BUFFER_SIZE bytes (src/consumer.c:86-127 and 171-179;
src/consumer.h:17). -/
theorem staging_buffer_bounds (wr : Nat → Nat → Nat) (stream : List Nat) :
    storesOk (consRun wr stream).trace = true ∧
    flushSizesOk (consRun wr stream).trace = true := by
  cases stream with
  | nil => simp [consRun, storesOk, flushSizesOk]
  | cons ch0 rest =>
    have h := (consLoop_bounds wr rest).1 0 [] ch0 (by simp)
    simp only [consRun]
    simp [storesOk, flushSizesOk, h.1, h.2]

/-- Helper for C5 and C1: with a destination accepting every write, the bytes
reaching the file are the staged prefix followed by the ring bytes up to (and
excluding) the first sentinel, provided a sentinel is present. -/
theorem consLoop_out :
    ∀ stream : List Nat,
      (∀ nf acc ch, 0 ∈ ch :: stream →
        (consLoop wrFull nf acc ch stream).out =
          acc ++ (ch :: stream).takeWhile (· != 0)) ∧
      (∀ nf acc ch, ch ≠ 0 → 0 ∈ stream →
        (consLoopStore wrFull nf acc ch stream).out =
          acc ++ ch :: stream.takeWhile (· != 0)) := by
  intro stream
  induction stream with
  | nil =>
    constructor
    · intro nf acc ch hz
      simp at hz
      subst hz
      simp only [consLoop]
      split_ifs <;> simp_all [wrFull, List.takeWhile, List.length_eq_zero]
    · intro nf acc ch hch hz
      simp at hz
  | cons ch' rest ih =>
    have hstore : ∀ nf acc ch, ch ≠ 0 → 0 ∈ ch' :: rest →
        (consLoopStore wrFull nf acc ch (ch' :: rest)).out =
          acc ++ ch :: (ch' :: rest).takeWhile (· != 0) := by
      intro nf acc ch hch hz
      have hl := ih.1 nf (acc ++ [ch]) ch' hz
      simp only [consLoopStore]
      simp [hl]
    refine ⟨?_, hstore⟩
    intro nf acc ch hz
    by_cases hch : ch = 0
    · subst hch
      simp only [consLoop]
      split_ifs <;> simp_all [wrFull, List.takeWhile, List.length_eq_zero]
    · have hz' : 0 ∈ ch' :: rest := by
        rcases List.mem_cons.mp hz with h | h
        · exact absurd h.symm hch
        · exact h
      have hs1 := hstore nf acc ch hch hz'
      have hs2 := hstore (nf + 1) [] ch hch hz'
      simp only [consLoop]
      rw [if_neg hch]
      by_cases hacc : CONS_BUFFER_SIZE ≤ acc.length
      · rw [if_pos hacc]
        simp [wrFull, hs2, List.takeWhile_cons, hch]
      · rw [if_neg hacc]
        simp [hs1, List.takeWhile_cons, hch]

/-- Helper: a terminal sentinel does not change the prefix before the first
sentinel. -/
theorem takeWhile_append_zero (l : List Nat) :
    (l ++ [0]).takeWhile (· != 0) = l.takeWhile (· != 0) := by
  induction l with
  | nil => simp [List.takeWhile]
  | cons a l ih =>
    by_cases ha : a = 0 <;> simp [List.takeWhile_cons, ha, ih]

/-- C5: the first sentinel byte 0 the consumer reads terminates the copy even
if more bytes follow in the ring: with a fully accepting destination, the
file receives exactly the prefix of the ring byte sequence before the first
0, and the 0 itself is never written (src/consumer.c:105, 146, 171-179). In
particular, for the ring bytes of the input "hi\x00world" (followed by the
producer's terminating sentinel) the output is "hi". -/
theorem sentinel_boundary :
    (∀ input : List Nat,
      (consRun wrFull (input ++ [0])).out = input.takeWhile (· != 0)) ∧
    (consRun wrFull ([104, 105, 0, 119, 111, 114, 108, 100] ++ [0])).out = [104, 105] := by
  have hgen : ∀ input : List Nat,
      (consRun wrFull (input ++ [0])).out = input.takeWhile (· != 0) := by
    intro input
    cases input with
    | nil => simp [consRun, consLoop, List.takeWhile]
    | cons x xs =>
      have h := (consLoop_out (xs ++ [0])).1 0 [] x (by simp)
      simp only [List.cons_append, consRun]
      rw [h, ← List.cons_append, takeWhile_append_zero]
      simp
  refine ⟨hgen, ?_⟩
  rw [hgen]
  decide

/-- Helper: the linear cell of the claimed store for global byte index k. -/
theorem wrAt_cell (k v : Nat) : (wrAt k v).cell = k % BUFFER_SIZE := by
  simp [wrAt, Wr.cell, BUFFER_SIZE, BLOCK_SIZE]
  omega

/-- Helper: the claimed stores depend on the global index only through its
residue mod BUFFER_SIZE. -/
theorem okWrites_congr : ∀ (l : List Nat) (n m : Nat),
    n % BUFFER_SIZE = m % BUFFER_SIZE → okWrites n l = okWrites m l := by
  intro l
  induction l with
  | nil => intro n m _; rfl
  | cons b rest ih =>
    intro n m h
    simp only [okWrites, wrAt, h]
    rw [ih (n + 1) (m + 1) (by simp only [BUFFER_SIZE] at h ⊢; omega)]

/-- Helper: claimed stores over an appended stream. -/
theorem okWrites_append : ∀ (l1 l2 : List Nat) (n : Nat),
    okWrites n (l1 ++ l2) = okWrites n l1 ++ okWrites (n + l1.length) l2 := by
  intro l1
  induction l1 with
  | nil => intro l2 n; simp [okWrites]
  | cons b rest ih =>
    intro l2 n
    simp only [List.cons_append, okWrites, List.length_cons, List.append_eq]
    rw [show n + (rest.length + 1) = n + 1 + rest.length by omega, ih]

/-- Helper: a prefix of the claimed stores covers a prefix of the stream. -/
theorem okWrites_take : ∀ (l : List Nat) (n j : Nat),
    (okWrites n l).take j = okWrites n (l.take j) := by
  intro l
  induction l with
  | nil => intro n j; simp [okWrites]
  | cons b rest ih =>
    intro n j
    cases j with
    | zero => simp [okWrites]
    | succ j => simp [okWrites, List.take_succ_cons, ih]

/-- Helper for C1 and C3: a send_data per-byte loop whose call does not wrap
past the end of the ring stores byte i at cursor p + i inside the block
containing it, and leaves the cursor at (p + length) mod BUFFER_SIZE. The
end-of-block invariant admits the two shapes the source produces: the next
block boundary (entry derivation, src/producer.c:50, and in-loop updates
below the top), or 0 after the in-loop update wrapped at the top
(src/producer.c:91). -/
theorem sendDataGo_spec :
    ∀ (d : List Nat) (p : Nat), p < BUFFER_SIZE → p + d.length ≤ BUFFER_SIZE →
      ∀ eob, (eob = p / BLOCK_SIZE * BLOCK_SIZE + BLOCK_SIZE ∨
        (eob = 0 ∧ p / BLOCK_SIZE + 1 = NUM_BLOCKS)) →
      sendDataGo p (p / BLOCK_SIZE) eob d = (okWrites p d, (p + d.length) % BUFFER_SIZE) := by
  intro d
  induction d with
  | nil =>
    intro p hp _ eob _
    simp [sendDataGo, okWrites, Nat.mod_eq_of_lt hp]
  | cons b rest ih =>
    intro p hp hlen eob heob
    simp only [BUFFER_SIZE, BLOCK_SIZE, NUM_BLOCKS] at ih hp hlen heob ⊢
    simp only [List.length_cons] at hlen
    have hwr : wrAt p b = ⟨p / 32, p % 32, p, b⟩ := by
      simp [wrAt, BUFFER_SIZE, BLOCK_SIZE]
      omega
    simp only [sendDataGo, okWrites, BUFFER_SIZE, BLOCK_SIZE, NUM_BLOCKS, hwr]
    rcases Nat.lt_or_ge (p + 1) 2048 with hp1 | hp1
    · rw [Nat.mod_eq_of_lt hp1]
      by_cases hcross : p + 1 = eob
      · rcases heob with h1 | ⟨h1, h2⟩
        · rw [if_pos hcross]
          have e1 : (p / 32 + 1) % 64 = (p + 1) / 32 := by omega
          have e2 : (eob + 32) % 2048 = (p + 1) / 32 * 32 + 32 ∨
              ((eob + 32) % 2048 = 0 ∧ (p + 1) / 32 + 1 = 64) := by omega
          rw [e1, ih (p + 1) hp1 (by omega) ((eob + 32) % 2048) e2]
          refine Prod.ext rfl ?_
          simp only [List.length_cons]
          omega
        · omega
      · rw [if_neg hcross]
        have e1 : p / 32 = (p + 1) / 32 := by rcases heob with h1 | ⟨h1, h2⟩ <;> omega
        have e2 : eob = (p + 1) / 32 * 32 + 32 ∨ (eob = 0 ∧ (p + 1) / 32 + 1 = 64) := by
          rcases heob with h1 | ⟨h1, h2⟩
          · left; omega
          · right; omega
        rw [e1, ih (p + 1) hp1 (by omega) eob e2]
        refine Prod.ext rfl ?_
        simp only [List.length_cons]
        omega
    · have hp2047 : p = 2047 := by omega
      have hrest : rest = [] := List.length_eq_zero.mp (by omega)
      subst hrest
      have hm : (p + 1) % 2048 = 0 := by omega
      rw [hm]
      split_ifs <;> simp [sendDataGo, okWrites] <;> omega

/-- Helper: send_data on a call that does not wrap past the end of the ring
performs exactly the claimed stores. The entry derivation of end_of_block
(src/producer.c:50) always has the next-block-boundary shape. -/
theorem send_data_spec (p : Nat) (d : List Nat) (hp : p < BUFFER_SIZE)
    (hlen : p + d.length ≤ BUFFER_SIZE) :
    send_data p d = (okWrites p d, (p + d.length) % BUFFER_SIZE) := by
  have he : derive_end_of_block p = p / BLOCK_SIZE * BLOCK_SIZE + BLOCK_SIZE := by
    simp only [derive_end_of_block, BLOCK_SIZE]
    omega
  rw [send_data, he]
  exact sendDataGo_spec d p hp hlen _ (Or.inl rfl)

/-- Helper: a multiple of B below a multiple of B is at least B below it. -/
theorem mult_bound (B w M : Nat) (h1 : B ∣ w) (h2 : B ∣ M) (h3 : w < M) :
    w + B ≤ M := by
  rcases h1 with ⟨a, rfl⟩
  rcases h2 with ⟨c, rfl⟩
  have hB : 0 < B := by
    rcases Nat.eq_zero_or_pos B with h | h
    · subst h; simp at h3
    · exact h
  have hac : a < c := Nat.lt_of_mul_lt_mul_left h3
  calc B * a + B = B * (a + 1) := by ring
    _ ≤ B * c := Nat.mul_le_mul_left B hac
    _ = B * c := rfl

/-- Helper: unfolding of the producer chunking for a nonempty stream. -/
theorem chunks_cons (B : Nat) (hB : 0 < B) (x : Nat) (xs : List Nat) :
    chunks B (x :: xs) = (x :: xs).take B :: chunks B ((x :: xs).drop B) := by
  obtain ⟨b, rfl⟩ : ∃ b, B = b + 1 := ⟨B - 1, by omega⟩
  simp [chunks, List.take_succ_cons, List.drop_succ_cons]

/-- Helper for C1 and C3: when the chunk size divides the ring capacity, every
send_data call starts at a cursor that is a multiple of the chunk size mod
BUFFER_SIZE, no call wraps past the end of the ring, and the producer stores
byte k of the stream at cursor k mod BUFFER_SIZE in the block containing it. -/
theorem prodChunksRun_spec (B : Nat) (hB : 0 < B) (hd : B ∣ BUFFER_SIZE) :
    ∀ (m : Nat) (l : List Nat), l.length ≤ m → ∀ n : Nat, B ∣ n →
      prodChunksRun (n % BUFFER_SIZE) (chunks B l) =
        (okWrites n l, (n + l.length) % BUFFER_SIZE) := by
  intro m
  induction m with
  | zero =>
    intro l hl n _
    have : l = [] := List.length_eq_zero.mp (by omega)
    subst this
    simp [chunks, prodChunksRun, okWrites]
  | succ m ihm =>
    intro l hl n hn
    cases l with
    | nil => simp [chunks, prodChunksRun, okWrites]
    | cons x xs =>
      rw [chunks_cons B hB]
      have hBpos : 0 < BUFFER_SIZE := by simp [BUFFER_SIZE]
      have hw : n % BUFFER_SIZE < BUFFER_SIZE := Nat.mod_lt _ hBpos
      have hwd : B ∣ n % BUFFER_SIZE := (Nat.dvd_mod_iff hd).mpr hn
      have hwB : n % BUFFER_SIZE + B ≤ BUFFER_SIZE := mult_bound B _ _ hwd hd hw
      have htlen : ((x :: xs).take B).length ≤ B := by
        rw [List.length_take]
        omega
      have hsd := send_data_spec (n % BUFFER_SIZE) ((x :: xs).take B) hw (by omega)
      have hcongr : okWrites (n % BUFFER_SIZE) ((x :: xs).take B) =
          okWrites n ((x :: xs).take B) :=
        okWrites_congr _ _ _ (by simp only [BUFFER_SIZE]; omega)
      rw [hcongr] at hsd
      by_cases hxl : (x :: xs).length ≤ B
      · have hdrop : (x :: xs).drop B = [] := List.drop_eq_nil_of_le hxl
        have htake : (x :: xs).take B = x :: xs := List.take_of_length_le hxl
        rw [htake] at hsd
        rw [hdrop, htake]
        simp only [chunks, prodChunksRun, hsd]
        simp [Nat.mod_add_mod]
      · push_neg at hxl
        have htkB : ((x :: xs).take B).length = B := by
          rw [List.length_take]
          omega
        have hcur : (n % BUFFER_SIZE + ((x :: xs).take B).length) % BUFFER_SIZE =
            (n + B) % BUFFER_SIZE := by
          rw [htkB, Nat.mod_add_mod]
        have hih := ihm ((x :: xs).drop B)
          (by rw [List.length_drop]; simp only [List.length_cons] at hl ⊢; omega)
          (n + B) (Nat.dvd_add hn (dvd_refl B))
        simp only [prodChunksRun, hsd, hcur, hih]
        have hsplit : okWrites n (x :: xs) =
            okWrites n ((x :: xs).take B) ++ okWrites (n + B) ((x :: xs).drop B) := by
          conv_lhs => rw [← List.take_append_drop B (x :: xs)]
          rw [okWrites_append, htkB]
        rw [hsplit]
        simp only [Prod.mk.injEq, true_and]
        congr 1
        rw [List.length_drop]
        simp only [List.length_cons] at hxl ⊢
        omega

/-- Helper for C1 and C3: with a chunk size dividing the ring capacity, the
complete list of producer stores (data then sentinel) is exactly the claimed
one: byte k of input ++ [0] goes to cursor k mod BUFFER_SIZE inside the block
containing it. -/
theorem prodWrites_spec (B : Nat) (input : List Nat) (hB : 0 < B)
    (hd : B ∣ BUFFER_SIZE) :
    prodWrites B input = okWrites 0 (input ++ [0]) := by
  have h1 := prodChunksRun_spec B hB hd input.length input (le_refl _) 0 (dvd_zero B)
  rw [Nat.zero_mod] at h1
  have hBpos : 0 < BUFFER_SIZE := by simp [BUFFER_SIZE]
  have hplt : input.length % BUFFER_SIZE < BUFFER_SIZE := Nat.mod_lt _ hBpos
  have hsent := send_data_spec (input.length % BUFFER_SIZE) [0] hplt
    (by simp only [List.length_singleton]; omega)
  have hc : okWrites (input.length % BUFFER_SIZE) [0] = okWrites input.length [0] :=
    okWrites_congr _ _ _ (by simp only [BUFFER_SIZE]; omega)
  rw [hc] at hsent
  simp only [prodWrites, h1, Nat.zero_add, hsent]
  rw [okWrites_append]
  simp

/-- Helper: replaying appended stores composes. -/
theorem applyWrites_append (l1 l2 : List Wr) (m : Nat → Nat) :
    applyWrites (l1 ++ l2) m = applyWrites l2 (applyWrites l1 m) := by
  simp [applyWrites, List.foldl_append]

/-- Helper: replaying one store. -/
theorem applyWrites_cons (w : Wr) (ws : List Wr) (m : Nat → Nat) :
    applyWrites (w :: ws) m = applyWrites ws (Function.update m w.cell w.val) := rfl

/-- Helper: replaying no stores. -/
theorem applyWrites_nil (m : Nat → Nat) : applyWrites [] m = m := rfl

/-- Helper for C1 (the semaphore window): replaying the claimed stores of a
stream no longer than the observation window of k leaves byte k of the stream
in cell k mod BUFFER_SIZE. The byte is written exactly once inside the
window: at store k itself, and no later store within k + BUFFER_SIZE hits the
same cell. -/
theorem applyWrites_okWrites :
    ∀ (s : List Nat) (m : Nat → Nat) (k : Nat), k < s.length →
      s.length ≤ k + BUFFER_SIZE →
      applyWrites (okWrites 0 s) m (k % BUFFER_SIZE) = s.getD k 0 := by
  intro s
  induction s using List.reverseRecOn with
  | nil =>
    intro m k h1 _
    simp at h1
  | append_singleton s' x ih =>
    intro m k h1 h2
    rw [okWrites_append, applyWrites_append]
    have hsingle : okWrites (0 + s'.length) [x] = [wrAt s'.length x] := by
      simp [okWrites]
    rw [hsingle]
    simp only [applyWrites_cons, applyWrites_nil]
    rw [wrAt_cell]
    by_cases hk : k = s'.length
    · subst hk
      rw [Function.update_same]
      rw [List.getD_append_right s' [x] 0 s'.length (le_refl _)]
      simp [wrAt]
    · have hklt : k < s'.length := by
        simp only [List.length_append, List.length_singleton] at h1
        omega
      have hne : k % BUFFER_SIZE ≠ s'.length % BUFFER_SIZE := by
        simp only [List.length_append, List.length_singleton, BUFFER_SIZE] at h2 ⊢
        omega
      rw [Function.update_noteq hne]
      rw [List.getD_append _ _ _ _ hklt]
      exact ih m k hklt (by simp only [List.length_append, List.length_singleton] at h2; omega)

/-- Helper for C1 and C3: the consumer's incremental block tracking is
consistent: before its (k+1)-th ring read the cursor is (k+1) mod
BUFFER_SIZE, the current block is the block containing the cursor, and
end_of_block is the next block boundary reduced mod BUFFER_SIZE. -/
theorem consStateAfter_spec : ∀ k : Nat,
    consStateAfter k =
      ⟨(k + 1) % BUFFER_SIZE, (k + 1) % BUFFER_SIZE / BLOCK_SIZE,
        ((k + 1) % BUFFER_SIZE / BLOCK_SIZE * BLOCK_SIZE + BLOCK_SIZE) % BUFFER_SIZE⟩ := by
  intro k
  induction k with
  | zero =>
    simp [consStateAfter, consInit, derive_end_of_block, BUFFER_SIZE, BLOCK_SIZE, NUM_BLOCKS]
  | succ k ih =>
    simp only [consStateAfter, ih, consStep, BUFFER_SIZE, BLOCK_SIZE, NUM_BLOCKS]
    split_ifs with h <;>
      simp only [CState.mk.injEq] <;>
      refine ⟨by omega, by omega, by omega⟩

/-- Helper for C1 and C3: the consumer's k-th ring read uses the block
containing cursor k mod BUFFER_SIZE. -/
theorem consReadAt_spec : ∀ k : Nat,
    consReadAt k = (k % BUFFER_SIZE / BLOCK_SIZE, k % BUFFER_SIZE) := by
  intro k
  cases k with
  | zero => simp [consReadAt, BUFFER_SIZE]
  | succ k =>
    simp only [consReadAt, consStateAfter_spec k, consStep]
    split_ifs <;> rfl

/-- Helper for C1: the consumer's k-th ring read accesses linear cell k mod
BUFFER_SIZE. -/
theorem consCell_spec (k : Nat) : consCell k = k % BUFFER_SIZE := by
  simp only [consCell, consReadAt_spec, BUFFER_SIZE, BLOCK_SIZE]
  omega

/-- Helper: reading a list back by position. -/
theorem map_getD_range : ∀ l : List Nat,
    (List.range l.length).map (fun k => l.getD k 0) = l := by
  intro l
  induction l with
  | nil => simp
  | cons x xs ih =>
    simp only [List.length_cons, List.range_succ_eq_map, List.map_cons, List.map_map]
    have h2 : List.map ((fun k => (x :: xs).getD k 0) ∘ Nat.succ) (List.range xs.length)
        = List.map (fun k => xs.getD k 0) (List.range xs.length) := by
      apply List.map_congr_left
      intro a _
      simp [Function.comp]
    rw [List.getD_cons_zero, h2, ih]

/-- Helper: truncating at or after position k does not change the byte at k. -/
theorem getD_take (l : List Nat) (j k : Nat) (h : k < j) :
    (l.take j).getD k 0 = l.getD k 0 := by
  simp only [List.getD_eq_getElem?_getD]
  rw [List.getElem?_take_of_lt h]

/-- C1: byte-for-byte fidelity. For every input stream with no 0x00 byte and
every length N (including 0, 1, BLOCK_SIZE-1, BLOCK_SIZE, BUFFER_SIZE-1,
BUFFER_SIZE, BUFFER_SIZE+1 and multiples of BUFFER_SIZE), running producer
and consumer to completion writes the input to the destination exactly.
sched k is the number of producer stores completed at the moment of the
consumer's k-th ring read; the two counting semaphores confine it to
k < sched k (the byte must have been posted) and sched k ≤ k + BUFFER_SIZE
(the producer cannot have acquired more empty slots than BUFFER_SIZE plus the
k slots the consumer released). The byte the k-th read returns is then the
ring cell the consumer addresses after sched k producer stores. The chunk
size B is kept abstract because PROD_BUFFER_SIZE is not defined under src;
for the intended TEMP_BUFFER_SIZE = 16 (producer.h) the divisibility
hypothesis holds. -/
theorem byte_for_byte_fidelity (B : Nat) (input : List Nat) (sched : Nat → Nat)
    (hB : 0 < B) (hd : B ∣ BUFFER_SIZE)
    (hz : ∀ b ∈ input, b ≠ 0)
    (hs : ∀ k, k < sched k ∧ sched k ≤ k + BUFFER_SIZE) :
    (consRun wrFull ((List.range (input.length + 1)).map
      (fun k => applyWrites ((prodWrites B input).take (sched k)) mem0 (consCell k)))).out
      = input := by
  have hw := prodWrites_spec B input hB hd
  have hlen : (input ++ [0]).length = input.length + 1 := by simp
  have hmap : ∀ k ∈ List.range (input.length + 1),
      applyWrites ((prodWrites B input).take (sched k)) mem0 (consCell k) =
        (input ++ [0]).getD k 0 := by
    intro k hk
    have hk' : k < input.length + 1 := List.mem_range.mp hk
    have h1 : k < ((input ++ [0]).take (sched k)).length := by
      rw [List.length_take]
      simp only [hlen]
      exact lt_min (hs k).1 hk'
    have h2 : ((input ++ [0]).take (sched k)).length ≤ k + BUFFER_SIZE := by
      rw [List.length_take]
      exact le_trans (min_le_left _ _) (hs k).2
    rw [hw, consCell_spec, okWrites_take, applyWrites_okWrites _ mem0 k h1 h2]
    exact getD_take _ _ _ (hs k).1
  have hstream : (List.range (input.length + 1)).map
      (fun k => applyWrites ((prodWrites B input).take (sched k)) mem0 (consCell k)) =
        input ++ [0] := by
    rw [List.map_congr_left hmap, ← hlen, map_getD_range]
  rw [hstream]
  cases input with
  | nil => simp [consRun, consLoop, List.takeWhile]
  | cons x xs =>
    have h := (consLoop_out (xs ++ [0])).1 0 [] x (by simp)
    simp only [List.cons_append, consRun]
    rw [h, ← List.cons_append, takeWhile_append_zero]
    simp only [List.nil_append]
    exact List.takeWhile_eq_self_iff.mpr (by
      intro b hb
      simpa using hz b hb)

/-- Witness for C1 at chunk size 16, input [1, 2, 3], and the schedule in
which the producer stays exactly one byte ahead of the consumer. -/
theorem byte_for_byte_fidelity_witness :
    (consRun wrFull ((List.range ([1, 2, 3].length + 1)).map
      (fun k => applyWrites ((prodWrites 16 [1, 2, 3]).take (k + 1)) mem0 (consCell k)))).out
      = [1, 2, 3] :=
  byte_for_byte_fidelity 16 [1, 2, 3] (fun k => k + 1) (by decide)
    ⟨128, rfl⟩ (by decide)
    (fun k => ⟨Nat.lt_succ_self k, by simp only [BUFFER_SIZE]; omega⟩)

/-- Helper for C3: each claimed store addresses the block and offset of its
own cursor position. -/
theorem okWrites_mem : ∀ (l : List Nat) (n : Nat) (w : Wr), w ∈ okWrites n l →
    w.block = w.pos / BLOCK_SIZE ∧ w.off = w.pos % BLOCK_SIZE := by
  intro l
  induction l with
  | nil => intro n w hw; simp [okWrites] at hw
  | cons b rest ih =>
    intro n w hw
    rcases List.mem_cons.mp hw with h | h
    · subst h
      exact ⟨rfl, rfl⟩
    · exact ih (n + 1) w h

/-- C3: lock-cursor invariant. Every store the producer performs goes through
the mutex of the block containing the store's cursor position (block =
position / BLOCK_SIZE, offset = position mod BLOCK_SIZE), and every ring read
the consumer performs uses the mutex of the block containing its cursor
position. For the producer this holds for the reachable chunkings (chunk size
dividing BUFFER_SIZE, as with the intended TEMP_BUFFER_SIZE = 16): then no
send_data call wraps past the end of the ring, which is the only way the
stale end_of_block of src/producer.c:50 could desynchronise cur_block from
the cursor. -/
theorem lock_cursor_invariant (B : Nat) (input : List Nat) (hB : 0 < B)
    (hd : B ∣ BUFFER_SIZE) (w : Wr) (hw : w ∈ prodWrites B input) (k : Nat) :
    (w.block = w.pos / BLOCK_SIZE ∧ w.off = w.pos % BLOCK_SIZE) ∧
    (consReadAt k).1 = (consReadAt k).2 / BLOCK_SIZE := by
  constructor
  · rw [prodWrites_spec B input hB hd] at hw
    exact okWrites_mem _ 0 w hw
  · rw [consReadAt_spec]

/-- Witness for C3 at chunk size 16, input [7], the first producer store, and
the consumer's fifth read. -/
theorem lock_cursor_invariant_witness :
    ((Wr.mk 0 0 0 7).block = (Wr.mk 0 0 0 7).pos / BLOCK_SIZE ∧
      (Wr.mk 0 0 0 7).off = (Wr.mk 0 0 0 7).pos % BLOCK_SIZE) ∧
    (consReadAt 5).1 = (consReadAt 5).2 / BLOCK_SIZE :=
  lock_cursor_invariant 16 [7] (by decide) ⟨128, rfl⟩ ⟨0, 0, 0, 7⟩
    (by simp [prodWrites, chunks, prodChunksRun, send_data, sendDataGo,
      derive_end_of_block, BUFFER_SIZE, BLOCK_SIZE, NUM_BLOCKS]) 5

/-- Helper for C4: the producer's event traces satisfy the wait discipline
from every call boundary onwards. -/
theorem prodCallsTr_semWaitSafe (orc : Nat → Bool) :
    ∀ cs : List (List Nat), ∀ t w : Nat,
      semWaitSafe none (prodCallsTr orc t w cs) = true := by
  intro cs
  induction cs with
  | nil => intro t w; simp [prodCallsTr, semWaitSafe]
  | cons c cs ihcs =>
    have hgo : ∀ (d : List Nat) (t w cb eob : Nat),
        semWaitSafe (some cb) (prodGoTr orc t w cb eob d cs) = true := by
      intro d
      induction d with
      | nil =>
        intro t w cb eob
        simp [prodGoTr, semWaitSafe, lockStep, ihcs t w]
      | cons b rest ihd =>
        intro t w cb eob
        simp only [prodGoTr]
        by_cases hw' : (w + 1) % BUFFER_SIZE = eob <;> by_cases ho : orc t <;>
          simp [hw', ho, semWaitSafe, lockStep, ihd]
    intro t w
    simp [prodCallsTr, semWaitSafe, lockStep, hgo]

/-- Helper for C4: the consumer loop's event traces satisfy the wait
discipline while holding the lock on the current block. -/
theorem consTrGo_semWaitSafe (orc : Nat → Bool) :
    ∀ (stream : List Nat) (t read cb eob ch : Nat),
      semWaitSafe (some cb) (consTrGo orc t read cb eob ch stream) = true := by
  intro stream
  induction stream with
  | nil =>
    intro t read cb eob ch
    by_cases hch : ch = 0 <;> simp [consTrGo, hch, semWaitSafe, lockStep]
  | cons ch' rest ih =>
    intro t read cb eob ch
    by_cases hch : ch = 0
    · simp [consTrGo, hch, semWaitSafe, lockStep]
    · simp only [consTrGo, if_neg hch]
      by_cases hr : (read + 1) % BUFFER_SIZE = eob <;> by_cases ho : orc t <;>
        by_cases hch' : ch' = 0 <;>
        simp [hr, ho, hch', semWaitSafe, lockStep, ih]

/-- C4: neither side executes a blocking semaphore wait while holding a block
mutex. Scanning the full synchronisation traces of producer
(src/producer.c:54, 78-82) and consumer (src/consumer.c:62, 75-80, 143-148)
from the unlocked state: every blocking wait on empty_spaces or full_spaces
happens with no block mutex held — the trywait fallback releases the held
lock first — and the wait is immediately followed by the lock acquisition
that re-acquires the released block. -/
theorem no_lock_across_blocking_wait (orc orc2 : Nat → Bool) (B : Nat)
    (input stream : List Nat) :
    semWaitSafe none (prodTrace orc B input) = true ∧
    semWaitSafe none (consTrace orc2 stream) = true := by
  constructor
  · exact prodCallsTr_semWaitSafe orc _ 0 0
  · cases stream with
    | nil => simp [consTrace, semWaitSafe]
    | cons ch0 rest =>
      simp only [consTrace]
      have hgo := consTrGo_semWaitSafe orc2 rest
      by_cases ho : orc2 0 <;>
        simp [ho, semWaitSafe, lockStep, derive_end_of_block, BUFFER_SIZE,
          BLOCK_SIZE, NUM_BLOCKS, hgo]
